import Mathlib

/-!
Verification of the linear-combination algebra of the bulletproofs R1CS
module (`src/r1cs/linear_combination.rs`).

The embedding models:
* `curve25519_dalek::scalar::Scalar` as the integers modulo the group order;
* the `Variable` enum with its derived total order (declaration order of the
  constructors first, then the `usize` index);
* `LinearCombination` as the ordered list of `(Variable, Scalar)` term pairs;
* the arithmetic trait implementations (`Add`, `Sub`, `Neg`, the two `Mul`
  directions, the two `From` lifts) as list operations, exactly as the source
  writes them;
* `LinearCombination::simplify` as a left fold that inserts every term into a
  `BTreeMap`, modelled as an association list with strictly ascending keys,
  and then reads the map back in ascending key order.
-/

namespace Bulletproofs

/-- The order of the curve25519 scalar group: the modulus of
`curve25519_dalek::scalar::Scalar` arithmetic. -/
def scalarOrder : Nat := 2 ^ 252 + 27742317777372353535851937790883648493

/-- Scalars are integers modulo the group order, the field of coefficients
used by `linear_combination.rs`. -/
abbrev Scalar := ZMod scalarOrder

/-- The `Variable` enum of `linear_combination.rs`: a tagged reference into
the constraint system.  Constructors appear in the declaration order of the
Rust source, which the derived `Ord` instance compares first. -/
inductive Variable where
  | Committed : Nat → Variable
  | MultiplierLeft : Nat → Variable
  | MultiplierRight : Nat → Variable
  | MultiplierOutput : Nat → Variable
  | One : Variable
deriving DecidableEq, Repr

/-- The discriminant of a `Variable`, in the declaration order of the Rust
enum; the derived `Ord` compares discriminants first. -/
def Variable.tag : Variable → Nat
  | .Committed _ => 0
  | .MultiplierLeft _ => 1
  | .MultiplierRight _ => 2
  | .MultiplierOutput _ => 3
  | .One => 4

/-- The `usize` payload of a `Variable` (`One` carries none, so it maps
to `0`); the derived `Ord` compares it when the discriminants tie. -/
def Variable.index : Variable → Nat
  | .Committed i => i
  | .MultiplierLeft i => i
  | .MultiplierRight i => i
  | .MultiplierOutput i => i
  | .One => 0

/-- The sort key realising the derived `Ord` of the Rust enum:
lexicographic on (discriminant, index). -/
def Variable.key (v : Variable) : Nat ×ₗ Nat := toLex (v.tag, v.index)

theorem Variable.key_injective : Function.Injective Variable.key := by
  intro a b h
  cases a <;> cases b <;>
    simp [Variable.key, Variable.tag, Variable.index, Prod.ext_iff] at h ⊢ <;>
    omega

/-- The total order on `Variable` derived in the Rust
source, obtained by lifting the lexicographic order along the sort key. -/
instance : LinearOrder Variable := LinearOrder.lift' Variable.key Variable.key_injective

theorem Variable.lt_iff (a b : Variable) :
    a < b ↔ (a.tag < b.tag ∨ (a.tag = b.tag ∧ a.index < b.index)) := by
  show a.key < b.key ↔ _
  unfold Variable.key
  rw [Prod.Lex.lt_iff]

/-- The `LinearCombination` struct: an ordered sequence of
`(Variable, Scalar)` term pairs. -/
structure LinearCombination where
  terms : List (Variable × Scalar)
deriving DecidableEq

/-- Model of `LinearCombination::get_terms`: returns the term vector. -/
def LinearCombination.get_terms (a : LinearCombination) : List (Variable × Scalar) :=
  a.terms

/-- Model of `impl From<Variable> for LinearCombination`: the single term `(v, 1)`. -/
def LinearCombination.ofVariable (v : Variable) : LinearCombination :=
  ⟨[(v, 1)]⟩

/-- Model of `impl From<S> for LinearCombination` (for `S: Into<Scalar>`): the single
term `(Variable::One(), s)`. -/
def LinearCombination.ofScalar (s : Scalar) : LinearCombination :=
  ⟨[(Variable.One, s)]⟩

/-- Model of `impl Add<L> for LinearCombination`: extends the left term vector with
the right one. -/
def LinearCombination.add (a b : LinearCombination) : LinearCombination :=
  ⟨a.terms ++ b.terms⟩

/-- Model of `impl Sub<L> for LinearCombination`: extends the left term vector with
the right one, negating each right coefficient. -/
def LinearCombination.sub (a b : LinearCombination) : LinearCombination :=
  ⟨a.terms ++ b.terms.map (fun t => (t.1, -t.2))⟩

/-- Model of `impl Neg for LinearCombination`: negates every coefficient in place. -/
def LinearCombination.neg (a : LinearCombination) : LinearCombination :=
  ⟨a.terms.map (fun t => (t.1, -t.2))⟩

/-- Model of `impl Mul<S> for LinearCombination`: multiplies every coefficient by the
scalar in place (the source computes `*s *= other`). -/
def LinearCombination.mulScalar (a : LinearCombination) (s : Scalar) : LinearCombination :=
  ⟨a.terms.map (fun t => (t.1, t.2 * s))⟩

/-- Model of `impl Mul<LinearCombination> for Scalar`: maps each term `(var, scalar)`
to `(var, scalar * self)`. -/
def scalarMulLC (s : Scalar) (a : LinearCombination) : LinearCombination :=
  ⟨a.terms.map (fun t => (t.1, t.2 * s))⟩

/-- Model of `impl Sub<L> for Variable` instantiated at a `Variable` right-hand side:
lifts both variables and subtracts the linear combinations. -/
def Variable.subVar (a b : Variable) : LinearCombination :=
  (LinearCombination.ofVariable a).sub (LinearCombination.ofVariable b)

/-- One insertion into the `BTreeMap<Variable, Scalar>` of
`LinearCombination::simplify`, modelled on the association list with strictly
ascending keys: `*vars.entry(var).or_insert_with(Scalar::zero) += val`. -/
def btreeInsert : List (Variable × Scalar) → Variable → Scalar → List (Variable × Scalar)
  | [], v, s => [(v, s)]
  | (k, x) :: rest, v, s =>
    if v < k then (v, s) :: (k, x) :: rest
    else if v = k then (k, x + s) :: rest
    else (k, x) :: btreeInsert rest v s

/-- The loop body of `LinearCombination::simplify`, as a fold step. -/
def insStep (m : List (Variable × Scalar)) (t : Variable × Scalar) :
    List (Variable × Scalar) :=
  btreeInsert m t.1 t.2

/-- Model of `LinearCombination::simplify`: inserts every term into a fresh
`BTreeMap` and collects the map back into a term vector in ascending key
order (the iteration order of a `BTreeMap`). -/
def LinearCombination.simplify (lc : LinearCombination) : LinearCombination :=
  ⟨lc.get_terms.foldl insStep []⟩

/-- The sum of the coefficients attached to the variable `v` in a term
list. -/
def coeffSum (v : Variable) : List (Variable × Scalar) → Scalar
  | [] => 0
  | t :: rest => (if t.1 = v then t.2 else 0) + coeffSum v rest

/-- The variables of a term list, in order. -/
def termVars (l : List (Variable × Scalar)) : List Variable :=
  l.map Prod.fst

/-- The value of a term list under an assignment of scalars to variables:
the sum of coefficient times assigned value over the terms. -/
def evalTerms (assign : Variable → Scalar) : List (Variable × Scalar) → Scalar
  | [] => 0
  | t :: rest => t.2 * assign t.1 + evalTerms assign rest

/-- The value of a linear combination under an assignment. -/
def LinearCombination.eval (lc : LinearCombination) (assign : Variable → Scalar) : Scalar :=
  evalTerms assign lc.terms

@[simp]
theorem termVars_nil : termVars [] = [] := rfl

@[simp]
theorem termVars_cons (t : Variable × Scalar) (l : List (Variable × Scalar)) :
    termVars (t :: l) = t.1 :: termVars l := rfl

@[simp]
theorem termVars_append (l1 l2 : List (Variable × Scalar)) :
    termVars (l1 ++ l2) = termVars l1 ++ termVars l2 :=
  List.map_append _ _ _

/-- Variables are preserved by the coefficient
maps used in `sub`, `neg` and the two `Mul` directions. -/
theorem termVars_map_snd (f : Scalar → Scalar) (l : List (Variable × Scalar)) :
    termVars (l.map (fun t => (t.1, f t.2))) = termVars l := by
  induction l with
  | nil => rfl
  | cons t rest ih => simp [ih]

/-- Claim C2: the derived order on `Variable` is total (reflexive-total,
antisymmetric, transitive), ranks the constructors
`Committed < MultiplierLeft < MultiplierRight < MultiplierOutput < One`,
and compares two variables of the same kind by ascending index. -/
theorem variable_order_total_and_ranked :
    (∀ a b : Variable, a ≤ b ∨ b ≤ a) ∧
    (∀ a b : Variable, a ≤ b → b ≤ a → a = b) ∧
    (∀ a b c : Variable, a ≤ b → b ≤ c → a ≤ c) ∧
    (∀ i j : Nat, Variable.Committed i < Variable.MultiplierLeft j) ∧
    (∀ i j : Nat, Variable.MultiplierLeft i < Variable.MultiplierRight j) ∧
    (∀ i j : Nat, Variable.MultiplierRight i < Variable.MultiplierOutput j) ∧
    (∀ i : Nat, Variable.MultiplierOutput i < Variable.One) ∧
    (∀ i j : Nat, Variable.Committed i < Variable.Committed j ↔ i < j) ∧
    (∀ i j : Nat, Variable.MultiplierLeft i < Variable.MultiplierLeft j ↔ i < j) ∧
    (∀ i j : Nat, Variable.MultiplierRight i < Variable.MultiplierRight j ↔ i < j) ∧
    (∀ i j : Nat, Variable.MultiplierOutput i < Variable.MultiplierOutput j ↔ i < j) := by
  refine ⟨fun a b => le_total a b, fun a b => le_antisymm, fun a b c => le_trans, ?_⟩
  refine ⟨?_, ?_, ?_, ?_, ?_, ?_, ?_, ?_⟩ <;>
    · intros
      simp [Variable.lt_iff, Variable.tag, Variable.index]

/-- Claim C2 witness: the order theorem applied at concrete variables, with the
antisymmetry and transitivity hypotheses discharged on concrete inputs. -/
theorem variable_order_total_and_ranked_witness :
    Variable.Committed 2 = Variable.Committed 2 ∧
    Variable.Committed 0 ≤ Variable.One :=
  ⟨variable_order_total_and_ranked.2.1 (Variable.Committed 2) (Variable.Committed 2)
      (by decide) (by decide),
   variable_order_total_and_ranked.2.2.1 (Variable.Committed 0) (Variable.MultiplierRight 7)
      Variable.One (by decide) (by decide)⟩

/-- Claim C5: addition appends the right term sequence to the left one, and
subtraction appends the right term sequence with each coefficient negated;
no term is merged, reordered or dropped. -/
theorem add_sub_are_append (a b : LinearCombination) :
    (a.add b).terms = a.terms ++ b.terms ∧
    (a.sub b).terms = a.terms ++ b.terms.map (fun t => (t.1, -t.2)) :=
  ⟨rfl, rfl⟩

/-- Claim C7: lifting a `Variable` yields the single term `(v, 1)`, and lifting a
scalar yields the single term `(One, s)`. -/
theorem lift_single_term (v : Variable) (s : Scalar) :
    (LinearCombination.ofVariable v).terms = [(v, 1)] ∧
    (LinearCombination.ofScalar s).terms = [(Variable.One, s)] :=
  ⟨rfl, rfl⟩

/-- Claim C8: negation keeps every variable in its position and negates every
coefficient: the term sequence of `-a` is the term sequence of `a` mapped by
`(v, s) ↦ (v, -s)`, and the variable sequence is unchanged. -/
theorem neg_negates_each_term (a : LinearCombination) :
    a.neg.terms = a.terms.map (fun t => (t.1, -t.2)) ∧
    termVars a.neg.terms = termVars a.terms :=
  ⟨rfl, termVars_map_snd _ _⟩

/-- Claim C9: scalar multiplication distributes over addition, in both the
`LinearCombination * Scalar` and the `Scalar * LinearCombination`
directions, as equal term sequences. -/
theorem mul_distributes_over_add (a b : LinearCombination) (s : Scalar) :
    (a.add b).mulScalar s = (a.mulScalar s).add (b.mulScalar s) ∧
    scalarMulLC s (a.add b) = (scalarMulLC s a).add (scalarMulLC s b) := by
  constructor <;>
    simp [LinearCombination.add, LinearCombination.mulScalar, scalarMulLC]

theorem coeffSum_btreeInsert (v w : Variable) (s : Scalar) (m : List (Variable × Scalar)) :
    coeffSum v (btreeInsert m w s) = coeffSum v m + (if w = v then s else 0) := by
  induction m with
  | nil => simp [btreeInsert, coeffSum]
  | cons t rest ih =>
    obtain ⟨k, x⟩ := t
    rcases lt_trichotomy w k with h1 | h1 | h1
    · simp only [btreeInsert, if_pos h1, coeffSum]
      ring
    · subst h1
      simp only [btreeInsert, lt_irrefl, if_neg (lt_irrefl w), if_pos rfl, coeffSum]
      by_cases h2 : w = v
      · simp only [h2, eq_self_iff_true, if_true]
        ring
      · simp [h2]
    · simp only [btreeInsert, if_neg (lt_asymm h1), if_neg (ne_of_gt h1), coeffSum, ih]
      ring

theorem coeffSum_foldl (v : Variable) (l m : List (Variable × Scalar)) :
    coeffSum v (l.foldl insStep m) = coeffSum v m + coeffSum v l := by
  induction l generalizing m with
  | nil => simp [coeffSum]
  | cons t rest ih =>
    simp only [List.foldl_cons, ih, insStep, coeffSum_btreeInsert, coeffSum]
    ring

theorem coeffSum_append (v : Variable) (l1 l2 : List (Variable × Scalar)) :
    coeffSum v (l1 ++ l2) = coeffSum v l1 + coeffSum v l2 := by
  induction l1 with
  | nil => simp [coeffSum]
  | cons t rest ih => simp [coeffSum, ih]; ring

theorem coeffSum_map_neg (v : Variable) (l : List (Variable × Scalar)) :
    coeffSum v (l.map (fun t => (t.1, -t.2))) = -(coeffSum v l) := by
  induction l with
  | nil => simp [coeffSum]
  | cons t rest ih =>
    by_cases h : t.1 = v
    · simp only [List.map_cons, coeffSum, h, eq_self_iff_true, if_true, ih]
      ring
    · simp [coeffSum, h, ih]

theorem coeffSum_eq_zero_of_not_mem {v : Variable} {l : List (Variable × Scalar)}
    (h : v ∉ termVars l) : coeffSum v l = 0 := by
  induction l with
  | nil => rfl
  | cons t rest ih =>
    simp only [termVars_cons, List.mem_cons, not_or] at h
    have hne : ¬ t.1 = v := fun he => h.1 he.symm
    simp [coeffSum, hne, ih h.2]

theorem mem_termVars_btreeInsert (u v : Variable) (s : Scalar)
    (m : List (Variable × Scalar)) :
    u ∈ termVars (btreeInsert m v s) ↔ u ∈ termVars m ∨ u = v := by
  induction m with
  | nil => simp [btreeInsert]
  | cons t rest ih =>
    obtain ⟨k, x⟩ := t
    rcases lt_trichotomy v k with h1 | h1 | h1
    · simp only [btreeInsert, if_pos h1]
      simp
      tauto
    · subst h1
      simp only [btreeInsert, if_neg (lt_irrefl v), if_pos rfl]
      simp
      tauto
    · simp only [btreeInsert, if_neg (lt_asymm h1), if_neg (ne_of_gt h1)]
      simp [ih]
      tauto

theorem sorted_btreeInsert (v : Variable) (s : Scalar) {m : List (Variable × Scalar)}
    (h : List.Sorted (· < ·) (termVars m)) :
    List.Sorted (· < ·) (termVars (btreeInsert m v s)) := by
  induction m with
  | nil => simp [btreeInsert, termVars]
  | cons t rest ih =>
    obtain ⟨k, x⟩ := t
    rw [termVars_cons, List.sorted_cons] at h
    rcases lt_trichotomy v k with h1 | h1 | h1
    · simp only [btreeInsert, if_pos h1, termVars_cons, List.sorted_cons]
      refine ⟨?_, ⟨h.1, ?_⟩⟩
      · intro b hb
        rcases List.mem_cons.mp hb with hb2 | hb2
        · exact hb2 ▸ h1
        · exact lt_trans h1 (h.1 b hb2)
      · exact h.2
    · subst h1
      have he : btreeInsert ((v, x) :: rest) v s = (v, x + s) :: rest := by
        simp [btreeInsert]
      rw [he, termVars_cons, List.sorted_cons]
      exact h
    · simp only [btreeInsert, if_neg (lt_asymm h1), if_neg (ne_of_gt h1), termVars_cons]
      rw [List.sorted_cons]
      refine ⟨?_, ih h.2⟩
      intro b hb
      rcases (mem_termVars_btreeInsert b v s rest).mp hb with hb2 | hb2
      · exact h.1 b hb2
      · exact hb2 ▸ h1

theorem mem_termVars_foldl (u : Variable) (l m : List (Variable × Scalar)) :
    u ∈ termVars (l.foldl insStep m) ↔ u ∈ termVars m ∨ u ∈ termVars l := by
  induction l generalizing m with
  | nil => simp
  | cons t rest ih =>
    simp only [List.foldl_cons, ih, insStep, mem_termVars_btreeInsert, termVars_cons,
      List.mem_cons]
    tauto

theorem sorted_foldl_insStep (l : List (Variable × Scalar))
    {m : List (Variable × Scalar)} (h : List.Sorted (· < ·) (termVars m)) :
    List.Sorted (· < ·) (termVars (l.foldl insStep m)) := by
  induction l generalizing m with
  | nil => exact h
  | cons t rest ih => exact ih (sorted_btreeInsert t.1 t.2 h)

/-- The output of simplify is sorted strictly ascending on variables. -/
theorem simplify_sorted_termVars (lc : LinearCombination) :
    List.Sorted (· < ·) (termVars lc.simplify.terms) :=
  sorted_foldl_insStep _ (by simp [termVars])

theorem coeffSum_eq_of_mem {l : List (Variable × Scalar)}
    (h : List.Sorted (· < ·) (termVars l)) {v : Variable} {s : Scalar}
    (hm : (v, s) ∈ l) : coeffSum v l = s := by
  induction l with
  | nil => exact absurd hm (List.not_mem_nil _)
  | cons t rest ih =>
    rw [termVars_cons, List.sorted_cons] at h
    rcases List.mem_cons.mp hm with hm1 | hm1
    · subst hm1
      have hnot : v ∉ termVars rest := fun hmem => lt_irrefl v (h.1 v hmem)
      simp [coeffSum, coeffSum_eq_zero_of_not_mem hnot]
    · have hvr : v ∈ termVars rest := by
        simp only [termVars, List.mem_map]
        exact ⟨(v, s), hm1, rfl⟩
      have hne : ¬ t.1 = v := fun he => lt_irrefl v (he ▸ h.1 v hvr)
      simp [coeffSum, hne, ih h.2 hm1]

/-- The coefficient of a variable in a simplified linear combination is the
sum of its coefficients in the original term list. -/
theorem simplify_coeffSum (lc : LinearCombination) (v : Variable) :
    coeffSum v lc.simplify.terms = coeffSum v lc.terms := by
  show coeffSum v (lc.get_terms.foldl insStep []) = _
  rw [coeffSum_foldl]
  simp [coeffSum, LinearCombination.get_terms]

theorem evalTerms_btreeInsert (assign : Variable → Scalar) (v : Variable) (s : Scalar)
    (m : List (Variable × Scalar)) :
    evalTerms assign (btreeInsert m v s) = evalTerms assign m + s * assign v := by
  induction m with
  | nil => simp [btreeInsert, evalTerms]
  | cons t rest ih =>
    obtain ⟨k, x⟩ := t
    rcases lt_trichotomy v k with h1 | h1 | h1
    · simp only [btreeInsert, if_pos h1, evalTerms]
      ring
    · subst h1
      have he : btreeInsert ((v, x) :: rest) v s = (v, x + s) :: rest := by
        simp [btreeInsert]
      rw [he]
      simp only [evalTerms]
      ring
    · simp only [btreeInsert, if_neg (lt_asymm h1), if_neg (ne_of_gt h1), evalTerms, ih]
      ring

theorem evalTerms_foldl (assign : Variable → Scalar) (l m : List (Variable × Scalar)) :
    evalTerms assign (l.foldl insStep m) = evalTerms assign m + evalTerms assign l := by
  induction l generalizing m with
  | nil => simp [evalTerms]
  | cons t rest ih =>
    simp only [List.foldl_cons, ih, insStep, evalTerms_btreeInsert, evalTerms]
    ring

theorem btreeInsert_comm_eq (m : List (Variable × Scalar)) (a : Variable) (x y : Scalar) :
    btreeInsert (btreeInsert m a x) a y = btreeInsert (btreeInsert m a y) a x := by
  induction m with
  | nil => simp [btreeInsert, add_comm]
  | cons t rest ih =>
    obtain ⟨k, c⟩ := t
    rcases lt_trichotomy a k with h1 | h1 | h1
    · simp [btreeInsert, h1, add_comm]
    · subst h1
      have hadd : c + x + y = c + y + x := by ring
      simp [btreeInsert, hadd]
    · simp [btreeInsert, lt_asymm h1, (ne_of_gt h1), ih]

theorem btreeInsert_comm_lt {a b : Variable} (h : a < b) (x y : Scalar)
    (m : List (Variable × Scalar)) :
    btreeInsert (btreeInsert m a x) b y = btreeInsert (btreeInsert m b y) a x := by
  induction m with
  | nil => simp [btreeInsert, h, lt_asymm h, h.ne']
  | cons t rest ih =>
    obtain ⟨k, c⟩ := t
    rcases lt_trichotomy a k with hak | hak | hak
    · rcases lt_trichotomy b k with hbk | hbk | hbk
      · simp [btreeInsert, h, lt_asymm h, h.ne', hak, hbk]
      · subst hbk
        simp [btreeInsert, h, lt_asymm h, h.ne', hak]
      · simp [btreeInsert, h, lt_asymm h, h.ne', hak, lt_asymm hbk, (ne_of_gt hbk)]
    · subst hak
      simp [btreeInsert, h, lt_asymm h, h.ne']
    · have hbk : k < b := lt_trans hak h
      simp [btreeInsert, lt_asymm hak, (ne_of_gt hak), lt_asymm hbk, (ne_of_gt hbk), ih]

theorem btreeInsert_comm (m : List (Variable × Scalar)) (a b : Variable) (x y : Scalar) :
    btreeInsert (btreeInsert m a x) b y = btreeInsert (btreeInsert m b y) a x := by
  rcases lt_trichotomy a b with h | h | h
  · exact btreeInsert_comm_lt h x y m
  · subst h
    exact btreeInsert_comm_eq m a x y
  · exact (btreeInsert_comm_lt h y x m).symm

theorem foldl_insStep_perm {l1 l2 : List (Variable × Scalar)} (h : l1.Perm l2) :
    ∀ m, l1.foldl insStep m = l2.foldl insStep m := by
  induction h with
  | nil => intro m; rfl
  | cons t _ ih =>
    intro m
    simp only [List.foldl_cons]
    exact ih _
  | swap t u l =>
    intro m
    show List.foldl insStep (insStep (insStep m u) t) l
      = List.foldl insStep (insStep (insStep m t) u) l
    rw [show insStep (insStep m u) t = insStep (insStep m t) u from
      btreeInsert_comm m u.1 t.1 u.2 t.2]
  | trans _ _ ih1 ih2 =>
    intro m
    rw [ih1, ih2]

theorem btreeInsert_append {m : List (Variable × Scalar)} {v : Variable}
    (h : ∀ k ∈ termVars m, k < v) (s : Scalar) :
    btreeInsert m v s = m ++ [(v, s)] := by
  induction m with
  | nil => rfl
  | cons t rest ih =>
    obtain ⟨k, c⟩ := t
    have hk : k < v := h k (by simp)
    simp only [btreeInsert, if_neg (lt_asymm hk), if_neg hk.ne', List.cons_append]
    rw [ih (fun u hu => h u (by simp [hu]))]

theorem foldl_insStep_sorted (l : List (Variable × Scalar)) :
    ∀ m, List.Sorted (· < ·) (termVars (m ++ l)) → l.foldl insStep m = m ++ l := by
  induction l with
  | nil =>
    intro m h
    simp
  | cons t rest ih =>
    intro m h
    have h2 : List.Sorted (· < ·) (termVars ((m ++ [t]) ++ rest)) := by
      simpa [List.append_assoc] using h
    have hlt : ∀ k ∈ termVars m, k < t.1 := by
      rw [termVars_append, termVars_cons] at h
      intro k hk
      exact (List.pairwise_append.mp h).2.2 k hk t.1 (by simp)
    have hstep : insStep m t = m ++ [t] := btreeInsert_append hlt t.2
    rw [List.foldl_cons, hstep, ih (m ++ [t]) h2, List.append_assoc]
    simp

/-- Claim C1: simplify returns a linear combination whose variable sequence is
strictly ascending in the Variable order (so each variable appears at most
once and the terms are sorted), whose variable set is exactly that of the
input (a term whose summed coefficient is zero is kept, not removed), and
whose coefficient at each variable is the sum of the coefficients of all
input terms with that variable. -/
theorem simplify_canonical (lc : LinearCombination) :
    List.Sorted (· < ·) (termVars lc.simplify.terms) ∧
    (termVars lc.simplify.terms).Nodup ∧
    (∀ v : Variable, v ∈ termVars lc.simplify.terms ↔ v ∈ termVars lc.terms) ∧
    (∀ v : Variable, ∀ s : Scalar, (v, s) ∈ lc.simplify.terms → s = coeffSum v lc.terms) := by
  have hs := simplify_sorted_termVars lc
  refine ⟨hs, hs.imp (fun hab => ne_of_lt hab), ?_, ?_⟩
  · intro v
    show v ∈ termVars (lc.get_terms.foldl insStep []) ↔ _
    rw [mem_termVars_foldl]
    simp [LinearCombination.get_terms]
  · intro v s hm
    exact (coeffSum_eq_of_mem hs hm).symm.trans (simplify_coeffSum lc v)

/-- Claim C1 witness: the canonical-form theorem applied at a concrete linear
combination with a duplicated variable, with the membership hypothesis
discharged by evaluation. -/
theorem simplify_canonical_witness :
    (7 : Scalar) = coeffSum (Variable.MultiplierLeft 0)
      (LinearCombination.mk [(Variable.MultiplierLeft 0, 2), (Variable.Committed 1, 3),
        (Variable.MultiplierLeft 0, 5)]).terms :=
  (simplify_canonical
    (LinearCombination.mk [(Variable.MultiplierLeft 0, 2), (Variable.Committed 1, 3),
      (Variable.MultiplierLeft 0, 5)])).2.2.2
    (Variable.MultiplierLeft 0) 7 (by decide)

/-- Claim C3: simplify is invariant under permutation of the term sequence
(equal multisets of terms give identical results), and in particular agrees
on a + b and b + a. -/
theorem simplify_perm_invariant :
    (∀ a b : LinearCombination, a.terms.Perm b.terms → a.simplify = b.simplify) ∧
    (∀ a b : LinearCombination, (a.add b).simplify = (b.add a).simplify) := by
  have h1 : ∀ a b : LinearCombination, a.terms.Perm b.terms → a.simplify = b.simplify := by
    intro a b h
    exact congrArg LinearCombination.mk (foldl_insStep_perm h [])
  refine ⟨h1, fun a b => h1 _ _ ?_⟩
  show (a.terms ++ b.terms).Perm (b.terms ++ a.terms)
  exact List.perm_append_comm

/-- Claim C3 witness: the permutation-invariance theorem applied at two concrete
linear combinations whose term lists are permutations of one another. -/
theorem simplify_perm_invariant_witness :
    (LinearCombination.mk [(Variable.One, 1), (Variable.Committed 0, 2)]).simplify
      = (LinearCombination.mk [(Variable.Committed 0, 2), (Variable.One, 1)]).simplify :=
  simplify_perm_invariant.1
    (LinearCombination.mk [(Variable.One, 1), (Variable.Committed 0, 2)])
    (LinearCombination.mk [(Variable.Committed 0, 2), (Variable.One, 1)])
    (by decide)

/-- Claim C4: simplifying v - v for a variable v yields exactly the single term
(v, 0) — the zero coefficient is retained — and, for any linear combination
a, the simplified a - a holds exactly the variables of a, each with
coefficient zero. -/
theorem simplify_sub_self :
    (∀ v : Variable, (Variable.subVar v v).simplify.terms = [(v, 0)]) ∧
    (∀ a : LinearCombination, ∀ v : Variable, ∀ s : Scalar,
      ((v, s) ∈ (a.sub a).simplify.terms ↔ v ∈ termVars a.terms ∧ s = 0)) := by
  constructor
  · intro v
    show ((LinearCombination.mk [(v, 1), (v, -1)]).get_terms.foldl insStep []) = [(v, 0)]
    simp [LinearCombination.get_terms, insStep, btreeInsert]
  · intro a v s
    have hsubterms : (a.sub a).terms = a.terms ++ a.terms.map (fun t => (t.1, -t.2)) := rfl
    have hzero : coeffSum v (a.sub a).terms = 0 := by
      rw [hsubterms, coeffSum_append, coeffSum_map_neg]
      ring
    have hs := simplify_sorted_termVars (a.sub a)
    constructor
    · intro hm
      have h1 : s = 0 := by
        have h2 := coeffSum_eq_of_mem hs hm
        rw [simplify_coeffSum, hzero] at h2
        exact h2.symm
      refine ⟨?_, h1⟩
      have hv : v ∈ termVars (a.sub a).simplify.terms := by
        simp only [termVars, List.mem_map]
        exact ⟨(v, s), hm, rfl⟩
      have h3 := (mem_termVars_foldl v (a.sub a).terms []).mp hv
      rcases h3 with h3 | h3
      · simp [termVars] at h3
      · rw [hsubterms, termVars_append, termVars_map_snd] at h3
        rcases List.mem_append.mp h3 with h4 | h4 <;> exact h4
    · rintro ⟨hv, hs0⟩
      subst hs0
      have hv2 : v ∈ termVars ((a.sub a).terms.foldl insStep []) := by
        rw [mem_termVars_foldl]
        right
        rw [hsubterms, termVars_append]
        exact List.mem_append.mpr (Or.inl hv)
      obtain ⟨t, ht, hteq⟩ := List.mem_map.mp hv2
      have hpair : (v, t.2) ∈ (a.sub a).simplify.terms := by
        rw [← hteq]
        exact ht
      have h5 := coeffSum_eq_of_mem hs hpair
      rw [simplify_coeffSum, hzero] at h5
      rw [h5]
      exact hpair

/-- Claim C4 witness: the a - a theorem applied at a concrete variable and at a
concrete linear combination, with the right-to-left side of the equivalence
discharged by evaluation. -/
theorem simplify_sub_self_witness :
    (Variable.subVar (Variable.MultiplierOutput 2) (Variable.MultiplierOutput 2)).simplify.terms
      = [(Variable.MultiplierOutput 2, 0)] ∧
    (Variable.Committed 3, (0 : Scalar)) ∈
      ((LinearCombination.mk [(Variable.Committed 3, 5)]).sub
        (LinearCombination.mk [(Variable.Committed 3, 5)])).simplify.terms :=
  ⟨simplify_sub_self.1 (Variable.MultiplierOutput 2),
   (simplify_sub_self.2 (LinearCombination.mk [(Variable.Committed 3, 5)])
      (Variable.Committed 3) 0).mpr ⟨by decide, rfl⟩⟩

/-- Claim C6: the value of a linear combination — the sum over its terms of the
coefficient times the assigned value of the variable — is unchanged by
simplify, under every assignment of scalars to variables. -/
theorem simplify_preserves_eval (assign : Variable → Scalar) (lc : LinearCombination) :
    lc.simplify.eval assign = lc.eval assign := by
  show evalTerms assign (lc.get_terms.foldl insStep []) = _
  rw [evalTerms_foldl]
  simp [evalTerms, LinearCombination.eval, LinearCombination.get_terms]

/-- Claim C10: simplify is idempotent, returns a linear combination whose
variables are already strictly ascending (each variable once, sorted by the
Variable order) unchanged, and maps the empty linear combination to the
empty linear combination. -/
theorem simplify_idempotent :
    (∀ lc : LinearCombination, lc.simplify.simplify = lc.simplify) ∧
    (∀ lc : LinearCombination,
      List.Sorted (· < ·) (termVars lc.terms) → lc.simplify = lc) ∧
    (LinearCombination.mk []).simplify = LinearCombination.mk [] := by
  have hfix : ∀ lc : LinearCombination,
      List.Sorted (· < ·) (termVars lc.terms) → lc.simplify = lc := by
    intro lc h
    show LinearCombination.mk (lc.get_terms.foldl insStep []) = lc
    rw [foldl_insStep_sorted lc.get_terms [] (by simpa [LinearCombination.get_terms] using h)]
    rfl
  exact ⟨fun lc => hfix _ (simplify_sorted_termVars lc), hfix,
    hfix (LinearCombination.mk []) (by simp [termVars])⟩

/-- Claim C10 witness: the idempotence theorem applied at a concrete sorted
linear combination, with the sortedness hypothesis discharged by
evaluation. -/
theorem simplify_idempotent_witness :
    (LinearCombination.mk [(Variable.Committed 0, 3), (Variable.One, 5)]).simplify
      = LinearCombination.mk [(Variable.Committed 0, 3), (Variable.One, 5)] :=
  simplify_idempotent.2.1
    (LinearCombination.mk [(Variable.Committed 0, 3), (Variable.One, 5)])
    (by decide)

end Bulletproofs
